import Mathlib

/-!
A verification development for the HierBasis C++ core
(src/helper_functions.cpp).  Vectors are modelled as lists of real
numbers; matrices as lists of their columns.  IEEE doubles are modelled
by real numbers; the single place where IEEE special values occur in the
source (the division by a zero suffix norm inside the proximal loop) is
modelled explicitly, see shrinkFactor below.
-/

/-- Sum of squares of a list, the quantity under arma::norm. -/
def sumSq : List ℝ → ℝ
  | [] => 0
  | x :: xs => x * x + sumSq xs

/-- Euclidean norm of a vector, as computed by arma::norm. -/
noncomputable def l2norm (l : List ℝ) : ℝ := Real.sqrt (sumSq l)

/-- helper_functions.cpp lines 9-19: max of two scalars via arma::max. -/
noncomputable def cpp_max (x y : ℝ) : ℝ := max x y

/-- The scaling factor cpp_max(1 - w / nrm, 0) from the proximal loops
(lines 56-58 and 171-173).  When nrm = 0 the C++ evaluates in IEEE
doubles: for w > 0, w / 0 = +Inf, 1 - Inf = -Inf and cpp_max(-Inf, 0) = 0;
for w = 0, 0 / 0 = NaN and arma::max skips NaN (its running maximum starts
at the most negative value and uses strict > comparisons), giving 0.
So for the nonnegative weights used throughout the package the factor at a
zero norm is 0, which the first branch records. -/
noncomputable def shrinkFactor (w nrm : ℝ) : ℝ :=
  if nrm = 0 then 0 else cpp_max (1 - w / nrm) 0

/-- helper_functions.cpp lines 145-178 (GetProxOne): the loop runs
j = p-1 down to 0 and rescales the suffix beta[j..p-1] in place by
shrinkFactor weights[j] (norm of the current suffix).  When index j is
processed, entries j+1..p-1 hold the result of the loop on the tail and
entry j still holds y[j], which is exactly this recursion. -/
noncomputable def getProxOne : List ℝ → List ℝ → List ℝ
  | y0 :: ys, w0 :: ws =>
    (y0 :: getProxOne ys ws).map
      (fun x => shrinkFactor w0 (l2norm (y0 :: getProxOne ys ws)) * x)
  | _, _ => []

/-- helper_functions.cpp lines 54-59: the inner loop of GetProx for one
column of weights, textually the same downward loop as GetProxOne, run on
a fresh copy temp_beta of y. -/
noncomputable def getProxCol : List ℝ → List ℝ → List ℝ
  | y0 :: ys, w0 :: ws =>
    (y0 :: getProxCol ys ws).map
      (fun x => shrinkFactor w0 (l2norm (y0 :: getProxCol ys ws)) * x)
  | _, _ => []

/-- helper_functions.cpp lines 23-67 (GetProx): one solved column per
column of the weight matrix; the weight matrix is modelled as the list of
its columns. -/
noncomputable def getProx (y : List ℝ) (weights : List (List ℝ)) :
    List (List ℝ) :=
  weights.map (fun wcol => getProxCol y wcol)

/-- arma::max over a nonempty vector (direct_max). -/
noncomputable def vecMax : List ℝ → ℝ
  | [] => 0
  | [x] => x
  | x :: y :: xs => max x (vecMax (y :: xs))

/-- helper_functions.cpp line 121: max(abs(v_temp) / ak), the default
max_lambda chosen by solveHierBasis when the caller passes NA. -/
noncomputable def maxLambda (v ak : List ℝ) : ℝ :=
  vecMax (List.zipWith (fun vi ai => |vi| / ai) v ak)

/-- arma::linspace(a, b, num): num points linearly spaced from a to b
inclusive; for num = 1 Armadillo returns the single point b. -/
noncomputable def linspace (a b : ℝ) (num : ℕ) : List ℝ :=
  if num = 0 then []
  else if num = 1 then [b]
  else (List.range num).map
    (fun (i : ℕ) => a + (i : ℝ) * ((b - a) / ((num : ℝ) - 1)))

/-- Base-10 logarithm, arma log10. -/
noncomputable def log10 (x : ℝ) : ℝ := Real.logb 10 x

/-- arma exp10: raise 10 to a real power. -/
noncomputable def exp10 (t : ℝ) : ℝ := (10 : ℝ) ^ t

/-- helper_functions.cpp lines 125-128: the lambda path of solveHierBasis,
linspace in log10 space from log10(max_lambda) to
log10(max_lambda * lam_min_ratio), then exp10. -/
noncomputable def lambdaPath (maxl ratio : ℝ) (nlam : ℕ) : List ℝ :=
  (linspace (log10 maxl) (log10 (maxl * ratio)) nlam).map exp10

/-! ### Vector and matrix operations used by FitAdditive -/

/-- Componentwise sum of two equal-length vectors. -/
def addV (a b : List ℝ) : List ℝ := List.zipWith (· + ·) a b

/-- Componentwise difference of two equal-length vectors. -/
def subV (a b : List ℝ) : List ℝ := List.zipWith (· - ·) a b

/-- Scalar times vector. -/
def smulV (c : ℝ) (v : List ℝ) : List ℝ := v.map (fun x => c * x)

/-- Dot product. -/
def dotV (a b : List ℝ) : ℝ := (List.zipWith (· * ·) a b).sum

/-- The all-zero vector of a given length. -/
def zeros (n : ℕ) : List ℝ := List.replicate n 0

/-- Matrix (stored as its list of columns, each of length n) times a
vector: the linear combination of the columns. -/
def matVec (n : ℕ) (cols : List (List ℝ)) (v : List ℝ) : List ℝ :=
  (List.zipWith smulV v cols).foldr addV (zeros n)

/-- Transposed matrix times a vector: one dot product per column. -/
def matTvec (cols : List (List ℝ)) (v : List ℝ) : List ℝ :=
  cols.map (fun c => dotV c v)

/-- arma sum(M, 1): the sum of the columns of M (an n-vector). -/
def sumCols (n : ℕ) (cols : List (List ℝ)) : List ℝ :=
  cols.foldr addV (zeros n)

/-- The mutable state of the FitAdditive loops: the coefficient matrix
beta (p columns of length J) and the fitted-contribution matrix x_beta
(p columns of length n). -/
structure FState where
  beta : List (List ℝ)
  xbeta : List (List ℝ)

/-- helper_functions.cpp lines 225-234, one block update j of the inner
coordinate-descent sweep: temp_y = y - sum(x_beta,1) + X_j beta_j,
temp_v = X_j^T (temp_y / n), beta_j and x_beta_j replaced using
GetProxOne.  X is the design cube, a list of p slices, each a list of J
columns of length n. -/
noncomputable def blockStep (n : ℕ) (y : List ℝ)
    (X : List (List (List ℝ))) (w : List ℝ) (st : FState) (j : ℕ) :
    FState :=
  let Xj := X.getD j []
  let temp_y := addV (subV y (sumCols n st.xbeta))
    (matVec n Xj (st.beta.getD j []))
  let temp_v := matTvec Xj (temp_y.map (fun x => x / (n : ℝ)))
  let bj := getProxOne temp_v w
  { beta := st.beta.set j bj, xbeta := st.xbeta.set j (matVec n Xj bj) }

/-- One full Gauss-Seidel sweep over the p blocks (lines 225-234): the
blocks are processed in order and each sees the updates of the previous
ones. -/
noncomputable def sweep (n : ℕ) (y : List ℝ) (X : List (List (List ℝ)))
    (w : List ℝ) (p : ℕ) (st : FState) : FState :=
  (List.range p).foldl (blockStep n y X w) st

/-- arma vectorise of the J x p matrix beta: concatenation of its
columns. -/
def vecBeta (st : FState) : List ℝ := st.beta.flatten

/-- helper_functions.cpp lines 219-254, the per-lambda while loop of
FitAdditive.  Output: final state, the stored output column (some,
exactly when |norm(vectorise beta) - norm(vectorise old_beta)| < tol
after some sweep) and whether the non-convergence warning fired (counter
reached max_iter).  The fuel argument is max_iter - counter. -/
noncomputable def runLam (n : ℕ) (y : List ℝ)
    (X : List (List (List ℝ))) (w : List ℝ) (p : ℕ) (tol : ℝ) :
    ℕ → FState → FState × Option (List ℝ) × Bool
  | 0, st => (st, none, false)
  | f + 1, st =>
    if |l2norm (vecBeta (sweep n y X w p st)) - l2norm (vecBeta st)| < tol
    then (sweep n y X w p st, some (vecBeta (sweep n y X w p st)), false)
    else if f = 0 then (sweep n y X w p st, none, true)
    else runLam n y X w p tol f (sweep n y X w p st)

/-- helper_functions.cpp lines 214-255, the outer loop over the weight
columns.  Crucially the state st carries over from one lambda to the
next: the code never resets beta or x_beta between lambda values. -/
noncomputable def fitAdditiveGo (n : ℕ) (y : List ℝ)
    (X : List (List (List ℝ))) (p : ℕ) (tol : ℝ) (max_iter : ℕ) :
    List (List ℝ) → FState → List (Option (List ℝ) × Bool)
  | [], _ => []
  | wcol :: rest, st =>
    (runLam n y X (wcol.map (fun x => x / (n : ℝ))) p tol max_iter st).2 ::
      fitAdditiveGo n y X p tol max_iter rest
        (runLam n y X (wcol.map (fun x => x / (n : ℝ))) p tol max_iter st).1

/-- FitAdditive with the per-lambda stored column and warning flag kept
visible. -/
noncomputable def fitAdditiveFull (y : List ℝ) (weights : List (List ℝ))
    (xbeta0 : List (List ℝ)) (X : List (List (List ℝ)))
    (beta0 : List (List ℝ)) (tol : ℝ) (p J n : ℕ) (max_iter : ℕ) :
    List (Option (List ℝ) × Bool) :=
  fitAdditiveGo n y X p tol max_iter weights
    { beta := beta0, xbeta := xbeta0 }

/-- helper_functions.cpp lines 182-258 (FitAdditive): the returned sparse
matrix beta_ans, as its list of columns; a column never stored stays the
all-zero column of length p * J. -/
noncomputable def fitAdditive (y : List ℝ) (weights : List (List ℝ))
    (xbeta0 : List (List ℝ)) (X : List (List (List ℝ)))
    (beta0 : List (List ℝ)) (tol : ℝ) (p J n : ℕ) (max_iter : ℕ) :
    List (List ℝ) :=
  (fitAdditiveFull y weights xbeta0 X beta0 tol p J n max_iter).map
    (fun r => r.1.getD (zeros (p * J)))

/-! ### Basic lemmas about norms and the shrink factor -/

theorem sumSq_nonneg (l : List ℝ) : 0 ≤ sumSq l := by
  induction l with
  | nil => simp [sumSq]
  | cons x xs ih => simpa [sumSq] using add_nonneg (mul_self_nonneg x) ih

theorem sumSq_eq_zero_iff (l : List ℝ) : sumSq l = 0 ↔ ∀ x ∈ l, x = 0 := by
  induction l with
  | nil => simp [sumSq]
  | cons x xs ih =>
    simp only [sumSq, List.mem_cons]
    constructor
    · intro h
      have hx2 : 0 ≤ x * x := mul_self_nonneg x
      have hs : 0 ≤ sumSq xs := sumSq_nonneg xs
      have hx : x = 0 := by nlinarith
      have hxs : sumSq xs = 0 := by nlinarith
      intro z hz
      rcases hz with rfl | hz
      · exact hx
      · exact (ih.mp hxs) z hz
    · intro h
      have hx : x = 0 := h x (Or.inl rfl)
      have hxs : sumSq xs = 0 := ih.mpr (fun z hz => h z (Or.inr hz))
      simp [hx, hxs]

theorem l2norm_nonneg (l : List ℝ) : 0 ≤ l2norm l := Real.sqrt_nonneg _

theorem l2norm_eq_zero_iff (l : List ℝ) : l2norm l = 0 ↔ ∀ x ∈ l, x = 0 := by
  rw [l2norm, Real.sqrt_eq_zero (sumSq_nonneg l)]
  exact sumSq_eq_zero_iff l

theorem sqrt_eval {a b : ℝ} (hb : 0 ≤ b) (h : a = b * b) : Real.sqrt a = b := by
  rw [h, Real.sqrt_mul_self hb]

theorem getD_eq_zero_of_forall {l : List ℝ} (h : ∀ x ∈ l, x = 0) (k : ℕ) :
    l.getD k 0 = 0 := by
  induction l generalizing k with
  | nil => simp
  | cons x xs ih =>
    cases k with
    | zero => simpa using h x (by simp)
    | succ k =>
      simp only [List.getD_cons_succ]
      exact ih (fun z hz => h z (by simp [hz])) k

theorem getD_map_mul (c : ℝ) (l : List ℝ) (k : ℕ) :
    (l.map (fun x => c * x)).getD k 0 = c * l.getD k 0 := by
  induction l generalizing k with
  | nil => simp
  | cons x xs ih =>
    cases k with
    | zero => simp
    | succ k =>
      simp only [List.map_cons, List.getD_cons_succ]
      exact ih k

theorem shrinkFactor_zero_norm (w : ℝ) : shrinkFactor w 0 = 0 := by
  simp [shrinkFactor]

theorem shrinkFactor_nonneg (w nrm : ℝ) : 0 ≤ shrinkFactor w nrm := by
  unfold shrinkFactor cpp_max
  split
  · exact le_refl 0
  · exact le_max_right _ _

theorem shrinkFactor_le_one (w nrm : ℝ) (hw : 0 ≤ w) (hn : 0 ≤ nrm) :
    shrinkFactor w nrm ≤ 1 := by
  unfold shrinkFactor cpp_max
  split
  · exact zero_le_one
  · rename_i h
    have hpos : 0 < nrm := lt_of_le_of_ne hn (Ne.symm h)
    have : 0 ≤ w / nrm := div_nonneg hw hn
    exact max_le (by linarith) zero_le_one

/-- getProxOne on an empty weight list returns the empty list. -/
theorem getProxOne_nil_right (y : List ℝ) : getProxOne y [] = [] := by
  cases y <;> rfl

/-- Unfolding equation for getProxOne on two cons cells. -/
theorem getProxOne_cons (y0 : ℝ) (ys : List ℝ) (w0 : ℝ) (ws : List ℝ) :
    getProxOne (y0 :: ys) (w0 :: ws) =
      (y0 :: getProxOne ys ws).map
        (fun x => shrinkFactor w0 (l2norm (y0 :: getProxOne ys ws)) * x) := by
  rw [getProxOne]

/-- C9: zero weights leave the input unchanged.  With an all-zero weight
vector every scaling step multiplies by max(1 - 0/norm, 0) = 1 when the
suffix norm is nonzero, and leaves an all-zero suffix at zero otherwise. -/
theorem getProxOne_zero_weights (y : List ℝ) :
    getProxOne y (List.replicate y.length 0) = y := by
  induction y with
  | nil => rfl
  | cons y0 ys ih =>
    simp only [List.length_cons, List.replicate_succ]
    rw [getProxOne_cons, ih]
    by_cases h : l2norm (y0 :: ys) = 0
    · rw [h, shrinkFactor_zero_norm]
      have hall := (l2norm_eq_zero_iff _).mp h
      have : ∀ x ∈ y0 :: ys, (fun x => (0:ℝ) * x) x = id x := by
        intro x hx
        simp [hall x hx]
      rw [List.map_congr_left this, List.map_id]
    · have hsf : shrinkFactor 0 (l2norm (y0 :: ys)) = 1 := by
        unfold shrinkFactor cpp_max
        rw [if_neg h]
        simp
      rw [hsf]
      simp

/-- C1 (amended): nested sparsity holds at indices where the input is
nonzero.  If the output vanishes at j while y[j] does not, some scaling
factor at an index at most j was zero, so the whole suffix from that
index on — in particular every entry from j on — is exactly zero. -/
theorem getProxOne_nested_sparsity_of_ne (y w : List ℝ) (j k : ℕ)
    (hjk : j ≤ k) (hy : y.getD j 0 ≠ 0)
    (hb : (getProxOne y w).getD j 0 = 0) :
    (getProxOne y w).getD k 0 = 0 := by
  induction y generalizing w j k with
  | nil => exact absurd (by simp) hy
  | cons y0 ys ih =>
    cases w with
    | nil => simp [getProxOne_nil_right]
    | cons w0 ws =>
      rw [getProxOne_cons, getD_map_mul] at hb ⊢
      rcases mul_eq_zero.mp hb with hc0 | hβ
      · rw [hc0, zero_mul]
      · cases j with
        | zero => exact absurd hβ (by simpa using hy)
        | succ j' =>
          cases k with
          | zero => omega
          | succ k' =>
            simp only [List.getD_cons_succ] at hβ ⊢
            rw [ih ws j' k' (by omega) (by simpa using hy) hβ, mul_zero]

/-- getProxOne on an empty input vector returns the empty list. -/
theorem getProxOne_nil_left (w : List ℝ) : getProxOne [] w = [] := by
  cases w <;> rfl

/-- C10: componentwise contraction and sign preservation.  Every output
entry is the corresponding input entry multiplied by an accumulated
factor in [0,1]; hence it is no larger in absolute value and is zero or
of the same sign. -/
theorem getProxOne_contraction (y w : List ℝ) (hw : ∀ x ∈ w, 0 ≤ x)
    (k : ℕ) :
    ∃ t : ℝ, 0 ≤ t ∧ t ≤ 1 ∧
      (getProxOne y w).getD k 0 = t * y.getD k 0 ∧
      |(getProxOne y w).getD k 0| ≤ |y.getD k 0| ∧
      ((getProxOne y w).getD k 0 = 0 ∨
        0 < (getProxOne y w).getD k 0 * y.getD k 0) := by
  induction y generalizing w k with
  | nil =>
    exact ⟨1, zero_le_one, le_refl 1, by simp [getProxOne_nil_left],
      by simp [getProxOne_nil_left], Or.inl (by simp [getProxOne_nil_left])⟩
  | cons y0 ys ih =>
    cases w with
    | nil =>
      exact ⟨0, le_refl 0, zero_le_one, by simp [getProxOne_nil_right],
        by simp [getProxOne_nil_right], Or.inl (by simp [getProxOne_nil_right])⟩
    | cons w0 ws =>
      have hw0 : 0 ≤ w0 := hw w0 (by simp)
      have hws : ∀ x ∈ ws, 0 ≤ x := fun x hx => hw x (by simp [hx])
      have hc0 : 0 ≤ shrinkFactor w0 (l2norm (y0 :: getProxOne ys ws)) :=
        shrinkFactor_nonneg _ _
      have hc1 : shrinkFactor w0 (l2norm (y0 :: getProxOne ys ws)) ≤ 1 :=
        shrinkFactor_le_one _ _ hw0 (l2norm_nonneg _)
      set c := shrinkFactor w0 (l2norm (y0 :: getProxOne ys ws)) with hcdef
      cases k with
      | zero =>
        refine ⟨c, hc0, hc1, ?_, ?_, ?_⟩
        · rw [getProxOne_cons, ← hcdef, getD_map_mul]
          simp
        · rw [getProxOne_cons, ← hcdef, getD_map_mul]
          simp only [List.getD_cons_zero]
          rw [abs_mul, abs_of_nonneg hc0]
          exact mul_le_of_le_one_left (abs_nonneg _) hc1
        · rw [getProxOne_cons, ← hcdef, getD_map_mul]
          simp only [List.getD_cons_zero]
          by_cases hz : c * y0 = 0
          · exact Or.inl hz
          · right
            have hcne : c ≠ 0 := fun h => hz (by rw [h, zero_mul])
            have hy0 : y0 ≠ 0 := fun h => hz (by rw [h, mul_zero])
            have hcpos : 0 < c := lt_of_le_of_ne hc0 (Ne.symm hcne)
            have harr : c * y0 * y0 = c * (y0 * y0) := by ring
            rw [harr]
            exact mul_pos hcpos (mul_self_pos.mpr hy0)
      | succ k' =>
        obtain ⟨t, ht0, ht1, heq, habs, hsign⟩ := ih ws hws k'
        refine ⟨c * t, mul_nonneg hc0 ht0, ?_, ?_, ?_, ?_⟩
        · calc c * t ≤ 1 * 1 := mul_le_mul hc1 ht1 ht0 zero_le_one
            _ = 1 := one_mul 1
        · rw [getProxOne_cons, ← hcdef, getD_map_mul]
          simp only [List.getD_cons_succ]
          rw [heq]
          ring
        · rw [getProxOne_cons, ← hcdef, getD_map_mul]
          simp only [List.getD_cons_succ]
          rw [abs_mul, abs_of_nonneg hc0]
          calc c * |(getProxOne ys ws).getD k' 0|
              ≤ |(getProxOne ys ws).getD k' 0| :=
                mul_le_of_le_one_left (abs_nonneg _) hc1
            _ ≤ |ys.getD k' 0| := habs
        · rw [getProxOne_cons, ← hcdef, getD_map_mul]
          simp only [List.getD_cons_succ]
          by_cases hz : c * (getProxOne ys ws).getD k' 0 = 0
          · exact Or.inl hz
          · right
            have hcne : c ≠ 0 := fun h => hz (by rw [h, zero_mul])
            have hbne : (getProxOne ys ws).getD k' 0 ≠ 0 :=
              fun h => hz (by rw [h, mul_zero])
            have hcpos : 0 < c := lt_of_le_of_ne hc0 (Ne.symm hcne)
            rcases hsign with h0 | hpos
            · exact absurd h0 hbne
            · have harr : c * (getProxOne ys ws).getD k' 0 * ys.getD k' 0 =
                  c * ((getProxOne ys ws).getD k' 0 * ys.getD k' 0) := by
                ring
              rw [harr]
              exact mul_pos hcpos hpos

/-- Witness for the contraction theorem at y = [2], w = [1]. -/
theorem getProxOne_contraction_witness :
    (∀ x ∈ [(1 : ℝ)], 0 ≤ x) ∧
      (∃ t : ℝ, 0 ≤ t ∧ t ≤ 1 ∧
        (getProxOne [(2 : ℝ)] [(1 : ℝ)]).getD 0 0 = t * ([(2 : ℝ)]).getD 0 0 ∧
        |(getProxOne [(2 : ℝ)] [(1 : ℝ)]).getD 0 0| ≤ |([(2 : ℝ)]).getD 0 0| ∧
        ((getProxOne [(2 : ℝ)] [(1 : ℝ)]).getD 0 0 = 0 ∨
          0 < (getProxOne [(2 : ℝ)] [(1 : ℝ)]).getD 0 0 * ([(2 : ℝ)]).getD 0 0)) :=
  ⟨by norm_num, getProxOne_contraction [(2 : ℝ)] [(1 : ℝ)] (by norm_num) 0⟩

/-! ### C4: the default max_lambda drives the proximal solution to zero -/

theorem sumSq_replicate_zero (n : ℕ) :
    sumSq (List.replicate n 0) = 0 := by
  induction n with
  | zero => simp [sumSq]
  | succ n ih => simp [List.replicate_succ, sumSq, ih]

theorem map_zero_mul (l : List ℝ) :
    l.map (fun x => (0 : ℝ) * x) = List.replicate l.length 0 := by
  induction l with
  | nil => simp
  | cons x xs ih => simp [List.replicate_succ, ih]

/-- If every weight dominates the matching input entry in absolute value,
every scaling step sees the suffix (v_j, 0, ..., 0), whose norm |v_j| is
at most w_j, so the factor max(1 - w_j / |v_j|, 0) collapses the suffix
to zero; the output is the zero vector. -/
theorem getProxOne_eq_zero_of_dominated (v w : List ℝ)
    (hlen : v.length = w.length)
    (h : ∀ j, |v.getD j 0| ≤ w.getD j 0) :
    getProxOne v w = List.replicate v.length 0 := by
  induction v generalizing w with
  | nil =>
    cases w with
    | nil => rfl
    | cons _ _ => simp at hlen
  | cons v0 vs ih =>
    cases w with
    | nil => simp at hlen
    | cons w0 ws =>
      have hlen' : vs.length = ws.length := by simpa using hlen
      have h' : ∀ j, |vs.getD j 0| ≤ ws.getD j 0 := fun j => by
        have := h (j + 1)
        simpa using this
      have ht := ih ws hlen' h'
      rw [getProxOne_cons, ht]
      by_cases hv0 : v0 = 0
      · subst hv0
        rw [← List.replicate_succ, List.map_congr_left
          (fun x hx => mul_comm (shrinkFactor w0
            (l2norm (List.replicate (vs.length + 1) 0))) x),
          List.map_replicate]
        simp
      · have hnorm : l2norm (v0 :: List.replicate vs.length 0) = |v0| := by
          rw [l2norm]
          have hs : sumSq (v0 :: List.replicate vs.length 0) = v0 * v0 := by
            simp [sumSq, sumSq_replicate_zero]
          rw [hs, Real.sqrt_mul_self_eq_abs]
        have h0 := h 0
        simp only [List.getD_cons_zero] at h0
        have habs : 0 < |v0| := abs_pos.mpr hv0
        have hc : shrinkFactor w0
            (l2norm (v0 :: List.replicate vs.length 0)) = 0 := by
          rw [hnorm]
          unfold shrinkFactor cpp_max
          rw [if_neg (ne_of_gt habs)]
          have hge : 1 ≤ w0 / |v0| := (one_le_div habs).mpr h0
          rw [max_eq_right (by linarith)]
        rw [hc, map_zero_mul]
        simp

/-- Unfolding equations for vecMax. -/
theorem vecMax_single (x : ℝ) : vecMax [x] = x := rfl

theorem vecMax_cons_cons (x y : ℝ) (l : List ℝ) :
    vecMax (x :: y :: l) = max x (vecMax (y :: l)) := rfl

/-- Every member of a list is at most its vecMax. -/
theorem le_vecMax {l : List ℝ} {x : ℝ} (hx : x ∈ l) : x ≤ vecMax l := by
  induction l with
  | nil => simp at hx
  | cons a as ih =>
    cases as with
    | nil =>
      rw [List.mem_singleton] at hx
      rw [hx, vecMax_single]
    | cons b bs =>
      rw [vecMax_cons_cons]
      rcases List.mem_cons.mp hx with rfl | hx'
      · exact le_max_left _ _
      · exact le_trans (ih hx') (le_max_right _ _)

/-- Entry j of the vector abs(v)/ak, for j in range. -/
theorem getD_zipWith_absdiv (v ak : List ℝ) (j : ℕ) (hj : j < v.length)
    (hjak : j < ak.length) :
    (List.zipWith (fun vi ai => |vi| / ai) v ak).getD j 0 =
      |v.getD j 0| / ak.getD j 0 := by
  induction v generalizing ak j with
  | nil => simp at hj
  | cons v0 vs ih =>
    cases ak with
    | nil => simp at hjak
    | cons a0 as =>
      cases j with
      | zero => simp
      | succ j' =>
        simp only [List.zipWith_cons_cons, List.getD_cons_succ]
        exact ih as j' (by simpa using hj) (by simpa using hjak)

/-- C4: with max_lambda = max(|v| / ak) (line 121) the weight vector
max_lambda * ak dominates |v| entrywise, and the proximal solution is
exactly the zero vector: the first point of the lambda path recovers the
fully sparse fit. -/
theorem getProxOne_maxLambda_null (v ak : List ℝ)
    (hlen : v.length = ak.length) (hpos : ∀ x ∈ ak, 0 < x) :
    getProxOne v (ak.map (fun a => maxLambda v ak * a)) =
      List.replicate v.length 0 := by
  apply getProxOne_eq_zero_of_dominated
  · simp [hlen]
  · intro j
    by_cases hj : j < v.length
    · have hjak : j < ak.length := hlen ▸ hj
      have hjz : j < (List.zipWith (fun vi ai => |vi| / ai) v ak).length := by
        rw [List.length_zipWith]
        omega
      have hdiv : (List.zipWith (fun vi ai => |vi| / ai) v ak).getD j 0 =
          |v.getD j 0| / ak.getD j 0 := getD_zipWith_absdiv v ak j hj hjak
      have hmem : (List.zipWith (fun vi ai => |vi| / ai) v ak).getD j 0 ∈
          List.zipWith (fun vi ai => |vi| / ai) v ak := by
        rw [List.getD_eq_getElem _ _ hjz]
        exact List.getElem_mem hjz
      have hle : |v.getD j 0| / ak.getD j 0 ≤ maxLambda v ak := by
        rw [← hdiv]
        exact le_vecMax hmem
      have hak : 0 < ak.getD j 0 := by
        rw [List.getD_eq_getElem _ _ hjak]
        exact hpos _ (List.getElem_mem hjak)
      rw [getD_map_mul]
      calc |v.getD j 0| = |v.getD j 0| / ak.getD j 0 * ak.getD j 0 :=
            (div_mul_cancel₀ _ (ne_of_gt hak)).symm
        _ ≤ maxLambda v ak * ak.getD j 0 :=
            mul_le_mul_of_nonneg_right hle (le_of_lt hak)
    · have hv : v.getD j 0 = 0 := List.getD_eq_default _ _ (by omega)
      have hw : (ak.map (fun a => maxLambda v ak * a)).getD j 0 = 0 := by
        apply List.getD_eq_default
        simp only [List.length_map]
        omega
      rw [hv, hw]
      simp

/-- Witness for C4 at v = [1], ak = [1]. -/
theorem getProxOne_maxLambda_null_witness :
    ([(1 : ℝ)]).length = ([(1 : ℝ)]).length ∧
      (∀ x ∈ [(1 : ℝ)], 0 < x) ∧
      getProxOne [(1 : ℝ)]
          (([(1 : ℝ)]).map (fun a => maxLambda [(1 : ℝ)] [(1 : ℝ)] * a)) =
        List.replicate ([(1 : ℝ)]).length 0 :=
  ⟨rfl, by norm_num,
    getProxOne_maxLambda_null [(1 : ℝ)] [(1 : ℝ)] rfl (by norm_num)⟩

/-! ### C5: the zero-suffix-norm edge case -/

/-- If the suffix entering step j of the proximal loop is all zero (its
norm vanishes), the final output is zero from index j on. -/
theorem getProxOne_suffix_zero (y : List ℝ) :
    ∀ (w : List ℝ) (j : ℕ),
      l2norm (y.getD j 0 :: getProxOne (y.drop (j + 1)) (w.drop (j + 1))) = 0 →
      j < y.length →
      ∀ k, j ≤ k → (getProxOne y w).getD k 0 = 0 := by
  induction y with
  | nil =>
    intro w j h0 hj
    simp at hj
  | cons y0 ys ih =>
    intro w j h0 hj k hk
    cases w with
    | nil => simp [getProxOne_nil_right]
    | cons w0 ws =>
      cases j with
      | zero =>
        simp only [List.getD_cons_zero, List.drop_succ_cons,
          List.drop_zero] at h0
        rw [getProxOne_cons, getD_map_mul]
        have hall := (l2norm_eq_zero_iff _).mp h0
        rw [getD_eq_zero_of_forall hall k, mul_zero]
      | succ j' =>
        cases k with
        | zero => omega
        | succ k' =>
          rw [getProxOne_cons, getD_map_mul]
          simp only [List.getD_cons_succ]
          have h0' : l2norm (ys.getD j' 0 ::
              getProxOne (ys.drop (j' + 1)) (ws.drop (j' + 1))) = 0 := by
            simpa using h0
          rw [ih ws j' h0' (by simpa using hj) k' (by omega), mul_zero]

/-- C5: when the suffix norm at step j is zero, the shrink factor of that
step is taken as 0 (shrinkFactor records the IEEE evaluation of
cpp_max(1 - w/0, 0)) and the all-zero suffix is left at zero in the
output; over the reals the output is everywhere well defined, so no
NaN or Inf appears. -/
theorem getProxOne_zero_norm_safe (y w : List ℝ) (j : ℕ)
    (hj : j < y.length) (hw : ∀ x ∈ w, 0 < x)
    (h0 : l2norm (y.getD j 0 ::
      getProxOne (y.drop (j + 1)) (w.drop (j + 1))) = 0) :
    shrinkFactor (w.getD j 0)
        (l2norm (y.getD j 0 ::
          getProxOne (y.drop (j + 1)) (w.drop (j + 1)))) = 0 ∧
      ∀ k, j ≤ k → (getProxOne y w).getD k 0 = 0 := by
  constructor
  · rw [h0]
    exact shrinkFactor_zero_norm _
  · exact getProxOne_suffix_zero y w j h0 hj

/-- Witness for C5 at y = [0,0], w = [1,1], j = 0. -/
theorem getProxOne_zero_norm_safe_witness :
    0 < ([(0 : ℝ), 0]).length ∧ (∀ x ∈ [(1 : ℝ), 1], 0 < x) ∧
      l2norm (([(0 : ℝ), 0]).getD 0 0 ::
        getProxOne (([(0 : ℝ), 0]).drop 1) (([(1 : ℝ), 1]).drop 1)) = 0 ∧
      (shrinkFactor (([(1 : ℝ), 1]).getD 0 0)
          (l2norm (([(0 : ℝ), 0]).getD 0 0 ::
            getProxOne (([(0 : ℝ), 0]).drop 1) (([(1 : ℝ), 1]).drop 1))) = 0 ∧
        ∀ k, 0 ≤ k → (getProxOne [(0 : ℝ), 0] [(1 : ℝ), 1]).getD k 0 = 0) := by
  have h0 : l2norm (([(0 : ℝ), 0]).getD 0 0 ::
      getProxOne (([(0 : ℝ), 0]).drop 1) (([(1 : ℝ), 1]).drop 1)) = 0 := by
    rw [l2norm_eq_zero_iff]
    intro x hx
    rcases List.mem_cons.mp hx with rfl | hx'
    · rfl
    · simp only [List.drop_succ_cons, List.drop_zero] at hx'
      have : getProxOne [(0 : ℝ)] [(1 : ℝ)] =
          ((0 : ℝ) :: getProxOne [] []).map
            (fun x => shrinkFactor 1 (l2norm ((0 : ℝ) :: getProxOne [] [])) * x) :=
        getProxOne_cons 0 [] 1 []
      rw [this, getProxOne_nil_left, List.map_cons, List.map_nil,
        mul_zero, List.mem_singleton] at hx'
      exact hx'
  exact ⟨by norm_num, by norm_num, h0,
    getProxOne_zero_norm_safe [(0 : ℝ), 0] [(1 : ℝ), 1] 0 (by norm_num)
      (by norm_num) h0⟩

/-! ### C8: each GetProx column equals GetProxOne -/

/-- getProxCol on an empty weight column. -/
theorem getProxCol_nil_right (y : List ℝ) : getProxCol y [] = [] := by
  cases y <;> rfl

/-- Unfolding equation for getProxCol on two cons cells. -/
theorem getProxCol_cons (y0 : ℝ) (ys : List ℝ) (w0 : ℝ) (ws : List ℝ) :
    getProxCol (y0 :: ys) (w0 :: ws) =
      (y0 :: getProxCol ys ws).map
        (fun x => shrinkFactor w0 (l2norm (y0 :: getProxCol ys ws)) * x) := by
  rw [getProxCol]

/-- The per-column loop of GetProx computes the same vector as
GetProxOne. -/
theorem getProxCol_eq_getProxOne (y : List ℝ) :
    ∀ w : List ℝ, getProxCol y w = getProxOne y w := by
  induction y with
  | nil => intro w; cases w <;> rfl
  | cons y0 ys ih =>
    intro w
    cases w with
    | nil => rfl
    | cons w0 ws => rw [getProxCol_cons, getProxOne_cons, ih ws]

/-- C8: the i-th column of GetProx(y, W) is GetProxOne(y, W[:,i]); the
optional form also records that column i of the output depends on y and
column i of W alone (each column is solved on a fresh copy of y, with no
state shared across columns). -/
theorem getProx_col_spec (y : List ℝ) (W : List (List ℝ)) (i : ℕ) :
    (getProx y W)[i]? = (W[i]?).map (fun wcol => getProxOne y wcol) := by
  rw [getProx, List.getElem?_map]
  cases W[i]? with
  | none => rfl
  | some wcol => simp [getProxCol_eq_getProxOne]

/-! ### Concrete evaluations of the proximal operator -/

theorem l2norm_one : l2norm [(1 : ℝ)] = 1 := by
  rw [l2norm]
  have hs : sumSq [(1 : ℝ)] = 1 := by norm_num [sumSq]
  rw [hs, Real.sqrt_one]

/-- getProxOne [1] [1/4] = [3/4]. -/
theorem prox_eval_quarter : getProxOne [(1 : ℝ)] [(1 / 4 : ℝ)] = [3 / 4] := by
  rw [getProxOne_cons, getProxOne_nil_left, l2norm_one]
  have hc : shrinkFactor (1 / 4 : ℝ) 1 = 3 / 4 := by
    unfold shrinkFactor cpp_max
    rw [if_neg (by norm_num : (1 : ℝ) ≠ 0),
      max_eq_left (by norm_num : (0 : ℝ) ≤ 1 - 1 / 4 / 1)]
    norm_num
  rw [hc]
  norm_num

/-- getProxOne [0,1] [1/4,1/4] = [0,1/2]: a zero input entry followed by
a surviving one. -/
theorem prox_eval_pair :
    getProxOne [(0 : ℝ), 1] [(1 / 4 : ℝ), 1 / 4] = [0, 1 / 2] := by
  rw [getProxOne_cons, prox_eval_quarter]
  have hn : l2norm [(0 : ℝ), 3 / 4] = 3 / 4 := by
    rw [l2norm]
    have hs : sumSq [(0 : ℝ), 3 / 4] = 3 / 4 * (3 / 4) := by
      norm_num [sumSq]
    rw [hs, Real.sqrt_mul_self (by norm_num : (0 : ℝ) ≤ 3 / 4)]
  rw [hn]
  have hc : shrinkFactor (1 / 4 : ℝ) (3 / 4) = 2 / 3 := by
    unfold shrinkFactor cpp_max
    rw [if_neg (by norm_num : (3 / 4 : ℝ) ≠ 0),
      max_eq_left (by norm_num : (0 : ℝ) ≤ 1 - 1 / 4 / (3 / 4))]
    norm_num
  rw [hc]
  norm_num

/-- getProxOne [1] [1] = [0]. -/
theorem prox_eval_unit : getProxOne [(1 : ℝ)] [(1 : ℝ)] = [0] := by
  rw [getProxOne_cons, getProxOne_nil_left, l2norm_one]
  have hc : shrinkFactor (1 : ℝ) 1 = 0 := by
    unfold shrinkFactor cpp_max
    rw [if_neg (by norm_num : (1 : ℝ) ≠ 0)]
    norm_num
  rw [hc]
  norm_num

/-- C1 counterexample: the hierarchy invariant as literally stated fails.
At y = [0,1], w = [1/4,1/4] the output is [0,1/2]: entry 0 is zero but
entry 1 is not. -/
theorem getProxOne_hierarchy_counterexample :
    ¬ ∀ (y w : List ℝ) (j k : ℕ), j ≤ k →
        (getProxOne y w).getD j 0 = 0 → (getProxOne y w).getD k 0 = 0 := by
  intro h
  have h01 := h [(0 : ℝ), 1] [(1 / 4 : ℝ), 1 / 4] 0 1 (by omega)
    (by rw [prox_eval_pair]; rfl)
  rw [prox_eval_pair] at h01
  norm_num at h01

/-- Witness for the amended C1 theorem at y = [1], w = [1], j = k = 0. -/
theorem getProxOne_nested_sparsity_witness :
    (0 : ℕ) ≤ 0 ∧ ([(1 : ℝ)]).getD 0 0 ≠ 0 ∧
      (getProxOne [(1 : ℝ)] [(1 : ℝ)]).getD 0 0 = 0 ∧
      (getProxOne [(1 : ℝ)] [(1 : ℝ)]).getD 0 0 = 0 :=
  ⟨le_refl 0, by norm_num, by rw [prox_eval_unit]; rfl,
    getProxOne_nested_sparsity_of_ne [(1 : ℝ)] [(1 : ℝ)] 0 0 (le_refl 0)
      (by norm_num) (by rw [prox_eval_unit]; rfl)⟩

/-! ### C3: the lambda path -/

theorem linspace_two_le (a b : ℝ) (m : ℕ) :
    linspace a b (m + 2) = (List.range (m + 2)).map
      (fun (i : ℕ) => a + (i : ℝ) * ((b - a) / (((m + 2 : ℕ) : ℝ) - 1))) := by
  unfold linspace
  rw [if_neg (by omega), if_neg (by omega)]

theorem linspace_length (a b : ℝ) (m : ℕ) :
    (linspace a b (m + 2)).length = m + 2 := by
  rw [linspace_two_le, List.length_map, List.length_range]

theorem linspace_getElem (a b : ℝ) (m i : ℕ)
    (hi : i < (linspace a b (m + 2)).length) :
    (linspace a b (m + 2))[i] =
      a + (i : ℝ) * ((b - a) / ((m : ℝ) + 1)) := by
  have hcast : (((m + 2 : ℕ) : ℝ)) - 1 = (m : ℝ) + 1 := by
    push_cast
    ring
  simp only [linspace_two_le] at hi ⊢
  rw [List.getElem_map, List.getElem_range, hcast]

/-- Closed form of the lambda path for nlam ≥ 2: the i-th value is
max_lambda * ratio ^ (i / (nlam - 1)). -/
theorem lambdaPath_getD (maxl ratio : ℝ) (m i : ℕ) (hmaxl : 0 < maxl)
    (hratio : 0 < ratio) (hi : i < m + 2) :
    (lambdaPath maxl ratio (m + 2)).getD i 0 =
      maxl * ratio ^ ((i : ℝ) / ((m : ℝ) + 1)) := by
  unfold lambdaPath
  have hlenls : (linspace (log10 maxl) (log10 (maxl * ratio))
      (m + 2)).length = m + 2 := linspace_length _ _ m
  have hlen : i < ((linspace (log10 maxl) (log10 (maxl * ratio))
      (m + 2)).map exp10).length := by
    rw [List.length_map, hlenls]
    exact hi
  rw [List.getD_eq_getElem _ _ hlen, List.getElem_map, linspace_getElem]
  have hd : log10 (maxl * ratio) - log10 maxl = log10 ratio := by
    unfold log10
    rw [Real.logb_mul (ne_of_gt hmaxl) (ne_of_gt hratio)]
    ring
  have hstep : log10 maxl + (i : ℝ) *
      ((log10 (maxl * ratio) - log10 maxl) / ((m : ℝ) + 1)) =
      log10 maxl + log10 ratio * ((i : ℝ) / ((m : ℝ) + 1)) := by
    rw [hd]
    ring
  rw [hstep]
  unfold exp10 log10
  rw [Real.rpow_add (by norm_num : (0 : ℝ) < 10),
    Real.rpow_logb (by norm_num) (by norm_num) hmaxl,
    Real.rpow_mul (by norm_num : (0 : ℝ) ≤ 10),
    Real.rpow_logb (by norm_num) (by norm_num) hratio]

/-- C3 (amended): for nlam ≥ 2, 0 < max_lambda and lam_min_ratio in
(0,1), the path has nlam entries, each positive and equal to
max_lambda * ratio ^ (i/(nlam-1)) (log-uniform spacing), the first is
max_lambda, the last max_lambda * ratio, and the entries strictly
decrease. -/
theorem lambdaPath_spec (maxl ratio : ℝ) (nlam : ℕ) (hmaxl : 0 < maxl)
    (hr0 : 0 < ratio) (hr1 : ratio < 1) (hn : 2 ≤ nlam) :
    (lambdaPath maxl ratio nlam).length = nlam ∧
      (∀ i, i < nlam → (lambdaPath maxl ratio nlam).getD i 0 =
        maxl * ratio ^ ((i : ℝ) / ((nlam : ℝ) - 1))) ∧
      (lambdaPath maxl ratio nlam).getD 0 0 = maxl ∧
      (lambdaPath maxl ratio nlam).getD (nlam - 1) 0 = maxl * ratio ∧
      (∀ i, i < nlam → 0 < (lambdaPath maxl ratio nlam).getD i 0) ∧
      (∀ i j, i < j → j < nlam →
        (lambdaPath maxl ratio nlam).getD j 0 <
          (lambdaPath maxl ratio nlam).getD i 0) := by
  obtain ⟨m, rfl⟩ : ∃ m, nlam = m + 2 := ⟨nlam - 2, by omega⟩
  have hcast : ((m + 2 : ℕ) : ℝ) - 1 = (m : ℝ) + 1 := by
    push_cast
    ring
  have hclosed : ∀ i, i < m + 2 →
      (lambdaPath maxl ratio (m + 2)).getD i 0 =
        maxl * ratio ^ ((i : ℝ) / ((m : ℝ) + 1)) :=
    fun i hi => lambdaPath_getD maxl ratio m i hmaxl hr0 hi
  have hm1 : (0 : ℝ) < (m : ℝ) + 1 := by positivity
  refine ⟨?_, ?_, ?_, ?_, ?_, ?_⟩
  · rw [lambdaPath, List.length_map, linspace_length]
  · intro i hi
    rw [hclosed i hi, hcast]
  · rw [hclosed 0 (by omega)]
    norm_num
  · have hlast := hclosed (m + 1) (by omega)
    have hexp : ((m + 1 : ℕ) : ℝ) / ((m : ℝ) + 1) = 1 := by
      push_cast
      field_simp
    have hidx : m + 2 - 1 = m + 1 := by omega
    rw [hidx, hlast, hexp, Real.rpow_one]
  · intro i hi
    rw [hclosed i hi]
    exact mul_pos hmaxl (Real.rpow_pos_of_pos hr0 _)
  · intro i j hij hj
    rw [hclosed i (by omega), hclosed j hj]
    have hexp : (i : ℝ) / ((m : ℝ) + 1) < (j : ℝ) / ((m : ℝ) + 1) := by
      apply div_lt_div_of_pos_right ?hab hm1
      exact_mod_cast hij
    exact mul_lt_mul_of_pos_left
      (Real.rpow_lt_rpow_of_exponent_gt hr0 hr1 hexp) hmaxl

theorem linspace_one (a b : ℝ) : linspace a b 1 = [b] := by
  unfold linspace
  rw [if_neg (by omega), if_pos rfl]

/-- C3 counterexample: with nlam = 1 the Armadillo linspace returns its
end point, so the single path value is max_lambda * lam_min_ratio, not
max_lambda.  At max_lambda = 10, ratio = 1/10 the path is [1]. -/
theorem lambdaPath_single_counterexample :
    lambdaPath 10 (1 / 10) 1 = [1] ∧
      (lambdaPath 10 (1 / 10) 1).getD 0 0 ≠ 10 := by
  have hpath : lambdaPath 10 (1 / 10) 1 = [1] := by
    unfold lambdaPath
    rw [linspace_one]
    have h1 : (10 : ℝ) * (1 / 10) = 1 := by norm_num
    rw [h1]
    have h2 : log10 1 = 0 := by
      unfold log10
      exact Real.logb_one
    have h3 : exp10 0 = 1 := by
      unfold exp10
      exact Real.rpow_zero 10
    rw [List.map_cons, List.map_nil, h2, h3]
  refine ⟨hpath, ?_⟩
  rw [hpath]
  norm_num

/-- Witness for the amended C3 theorem at max_lambda = 10,
ratio = 1/10, nlam = 2. -/
theorem lambdaPath_spec_witness :
    (0 : ℝ) < 10 ∧ (0 : ℝ) < 1 / 10 ∧ (1 / 10 : ℝ) < 1 ∧ 2 ≤ 2 ∧
      (lambdaPath 10 (1 / 10) 2).length = 2 :=
  ⟨by norm_num, by norm_num, by norm_num, le_refl 2,
    (lambdaPath_spec 10 (1 / 10) 2 (by norm_num) (by norm_num)
      (by norm_num) (le_refl 2)).1⟩

/-! ### Structure of the FitAdditive loops -/

theorem runLam_zero (n : ℕ) (y : List ℝ) (X : List (List (List ℝ)))
    (w : List ℝ) (p : ℕ) (tol : ℝ) (st : FState) :
    runLam n y X w p tol 0 st = (st, none, false) := by
  rw [runLam]

theorem runLam_succ (n : ℕ) (y : List ℝ) (X : List (List (List ℝ)))
    (w : List ℝ) (p : ℕ) (tol : ℝ) (f : ℕ) (st : FState) :
    runLam n y X w p tol (f + 1) st =
      if |l2norm (vecBeta (sweep n y X w p st)) - l2norm (vecBeta st)| < tol
      then (sweep n y X w p st, some (vecBeta (sweep n y X w p st)), false)
      else if f = 0 then (sweep n y X w p st, none, true)
      else runLam n y X w p tol f (sweep n y X w p st) := by
  rw [runLam]

/-- The stored-column component of one loop step: convergence stores the
freshly vectorised beta, otherwise the remaining iterations decide. -/
theorem runLam_res_succ (n : ℕ) (y : List ℝ) (X : List (List (List ℝ)))
    (w : List ℝ) (p : ℕ) (tol : ℝ) (f : ℕ) (st : FState) :
    (runLam n y X w p tol (f + 1) st).2.1 =
      if |l2norm (vecBeta (sweep n y X w p st)) - l2norm (vecBeta st)| < tol
      then some (vecBeta (sweep n y X w p st))
      else (runLam n y X w p tol f (sweep n y X w p st)).2.1 := by
  rw [runLam_succ]
  by_cases h : |l2norm (vecBeta (sweep n y X w p st)) -
      l2norm (vecBeta st)| < tol
  · rw [if_pos h, if_pos h]
  · rw [if_neg h, if_neg h]
    by_cases hf : f = 0
    · subst hf
      rw [if_pos rfl, runLam_zero]
    · rw [if_neg hf]

/-- C6: the per-lambda loop of FitAdditive (lines 236-244) declares
convergence exactly when, after some full sweep, the absolute difference
of the norms of the vectorised new and old beta (a difference of norms,
not the norm of the difference) drops below tol, and the stored output
column for that lambda is the vectorised beta after the first such
sweep. -/
theorem runLam_converged_iff (n : ℕ) (y : List ℝ)
    (X : List (List (List ℝ))) (w : List ℝ) (p : ℕ) (tol : ℝ)
    (fuel : ℕ) (st : FState) (col : List ℝ) :
    (runLam n y X w p tol fuel st).2.1 = some col ↔
      ∃ k, k < fuel ∧
        |l2norm (vecBeta ((sweep n y X w p)^[k + 1] st)) -
          l2norm (vecBeta ((sweep n y X w p)^[k] st))| < tol ∧
        (∀ m, m < k →
          ¬ |l2norm (vecBeta ((sweep n y X w p)^[m + 1] st)) -
            l2norm (vecBeta ((sweep n y X w p)^[m] st))| < tol) ∧
        col = vecBeta ((sweep n y X w p)^[k + 1] st) := by
  induction fuel generalizing st with
  | zero =>
    rw [runLam_zero]
    simp
  | succ f ih =>
    rw [runLam_res_succ]
    by_cases h : |l2norm (vecBeta (sweep n y X w p st)) -
        l2norm (vecBeta st)| < tol
    · rw [if_pos h]
      constructor
      · intro hsome
        refine ⟨0, by omega, by simpa using h, fun m hm => by omega, ?_⟩
        have hcol := Option.some.injEq _ _ ▸ hsome
        simpa using (Option.some_injective _ hsome).symm
      · rintro ⟨k, hk, htest, hmin, hcol⟩
        have hk0 : k = 0 := by
          by_contra hne
          exact (hmin 0 (by omega)) (by simpa using h)
        subst hk0
        rw [hcol]
        simp
    · rw [if_neg h]
      rw [ih (sweep n y X w p st)]
      constructor
      · rintro ⟨k, hk, htest, hmin, hcol⟩
        refine ⟨k + 1, by omega, ?_, ?_, ?_⟩
        · simpa [Function.iterate_succ_apply] using htest
        · intro m hm
          cases m with
          | zero => simpa using h
          | succ m' =>
            have hmm := hmin m' (by omega)
            simpa [Function.iterate_succ_apply] using hmm
        · simpa [Function.iterate_succ_apply] using hcol
      · rintro ⟨k, hk, htest, hmin, hcol⟩
        cases k with
        | zero => exact absurd (by simpa using htest) h
        | succ k' =>
          refine ⟨k', by omega, ?_, ?_, ?_⟩
          · simpa [Function.iterate_succ_apply] using htest
          · intro m hm
            have hmm := hmin (m + 1) (by omega)
            simpa [Function.iterate_succ_apply] using hmm
          · simpa [Function.iterate_succ_apply] using hcol

/-- If the loop was entered (max_iter ≥ 1) and no column was stored, the
warning fired. -/
theorem runLam_none_warn (n : ℕ) (y : List ℝ) (X : List (List (List ℝ)))
    (w : List ℝ) (p : ℕ) (tol : ℝ) :
    ∀ (fuel : ℕ) (st : FState), 1 ≤ fuel →
      (runLam n y X w p tol fuel st).2.1 = none →
      (runLam n y X w p tol fuel st).2.2 = true := by
  intro fuel
  induction fuel with
  | zero => omega
  | succ f ih =>
    intro st _ hnone
    rw [runLam_succ] at hnone ⊢
    by_cases h : |l2norm (vecBeta (sweep n y X w p st)) -
        l2norm (vecBeta st)| < tol
    · rw [if_pos h] at hnone
      simp at hnone
    · rw [if_neg h] at hnone ⊢
      by_cases hf : f = 0
      · subst hf
        rw [if_pos rfl]
      · rw [if_neg hf] at hnone ⊢
        exact ih (sweep n y X w p st) (by omega) hnone

theorem fitAdditiveGo_nil (n : ℕ) (y : List ℝ) (X : List (List (List ℝ)))
    (p : ℕ) (tol : ℝ) (mi : ℕ) (st : FState) :
    fitAdditiveGo n y X p tol mi [] st = [] := by
  rw [fitAdditiveGo]

theorem fitAdditiveGo_cons (n : ℕ) (y : List ℝ) (X : List (List (List ℝ)))
    (p : ℕ) (tol : ℝ) (mi : ℕ) (wcol : List ℝ) (rest : List (List ℝ))
    (st : FState) :
    fitAdditiveGo n y X p tol mi (wcol :: rest) st =
      (runLam n y X (wcol.map (fun x => x / (n : ℝ))) p tol mi st).2 ::
        fitAdditiveGo n y X p tol mi rest
          (runLam n y X (wcol.map (fun x => x / (n : ℝ))) p tol mi st).1 := by
  rw [fitAdditiveGo]

theorem fitAdditiveGo_length (n : ℕ) (y : List ℝ)
    (X : List (List (List ℝ))) (p : ℕ) (tol : ℝ) (mi : ℕ) :
    ∀ (W : List (List ℝ)) (st : FState),
      (fitAdditiveGo n y X p tol mi W st).length = W.length := by
  intro W
  induction W with
  | nil =>
    intro st
    rw [fitAdditiveGo_nil]
    simp
  | cons wcol rest ih =>
    intro st
    rw [fitAdditiveGo_cons, List.length_cons, List.length_cons, ih]

/-- Every entry of the outer loop is the pair (stored column, warning
flag) of a runLam call with that lambda's weight column. -/
theorem fitAdditiveGo_entry (n : ℕ) (y : List ℝ)
    (X : List (List (List ℝ))) (p : ℕ) (tol : ℝ) (mi : ℕ) :
    ∀ (W : List (List ℝ)) (st : FState) (i : ℕ) (r : Option (List ℝ) × Bool),
      (fitAdditiveGo n y X p tol mi W st)[i]? = some r →
      ∃ (wcol : List ℝ) (st2 : FState), W[i]? = some wcol ∧
        r = (runLam n y X (wcol.map (fun x => x / (n : ℝ))) p tol mi st2).2 := by
  intro W
  induction W with
  | nil =>
    intro st i r h
    rw [fitAdditiveGo_nil] at h
    simp at h
  | cons wcol rest ih =>
    intro st i r h
    rw [fitAdditiveGo_cons] at h
    cases i with
    | zero =>
      rw [List.getElem?_cons_zero] at h
      exact ⟨wcol, st, by simp, (Option.some_injective _ h).symm⟩
    | succ i' =>
      rw [List.getElem?_cons_succ] at h
      obtain ⟨wc, st2, hW, hr⟩ := ih _ i' r h
      exact ⟨wc, st2, by rw [List.getElem?_cons_succ]; exact hW, hr⟩

/-- C7: if the iteration budget (max_iter ≥ 1) is exhausted for some
lambda without the convergence test passing (no column stored), the
warning fired for that lambda, the output column of FitAdditive for that
lambda stays the all-zero column of length p * J, and the computation
still produces a column for every lambda on the path. -/
theorem fitAdditive_nonconvergence (y : List ℝ) (W : List (List ℝ))
    (xbeta0 : List (List ℝ)) (X : List (List (List ℝ)))
    (beta0 : List (List ℝ)) (tol : ℝ) (p J n max_iter : ℕ) (i : ℕ)
    (r : Option (List ℝ) × Bool) (hmi : 1 ≤ max_iter)
    (hri : (fitAdditiveFull y W xbeta0 X beta0 tol p J n max_iter)[i]? =
      some r)
    (hnc : r.1 = none) :
    r.2 = true ∧
      (fitAdditive y W xbeta0 X beta0 tol p J n max_iter)[i]? =
        some (zeros (p * J)) ∧
      (fitAdditive y W xbeta0 X beta0 tol p J n max_iter).length =
        W.length := by
  have hlen : (fitAdditive y W xbeta0 X beta0 tol p J n max_iter).length =
      W.length := by
    rw [fitAdditive, List.length_map, fitAdditiveFull, fitAdditiveGo_length]
  obtain ⟨wcol, st2, hWi, hr⟩ := fitAdditiveGo_entry n y X p tol max_iter
    W { beta := beta0, xbeta := xbeta0 } i r hri
  have hwarn : r.2 = true := by
    rw [hr]
    apply runLam_none_warn _ _ _ _ _ _ _ _ hmi
    rw [hr] at hnc
    exact hnc
  refine ⟨hwarn, ?_, hlen⟩
  rw [fitAdditive, List.getElem?_map, hri]
  simp [hnc]

/-- The i-th entry of the outer loop depends only on the first i+1 weight
columns (and the starting state): the loop is sequential in the lambda
index, each lambda warm-starting from the state the previous one left. -/
theorem fitAdditiveGo_take_det (n : ℕ) (y : List ℝ)
    (X : List (List (List ℝ))) (p : ℕ) (tol : ℝ) (mi : ℕ) :
    ∀ (i : ℕ) (W W2 : List (List ℝ)) (st : FState),
      W.take (i + 1) = W2.take (i + 1) →
      (fitAdditiveGo n y X p tol mi W st)[i]? =
        (fitAdditiveGo n y X p tol mi W2 st)[i]? := by
  intro i
  induction i with
  | zero =>
    intro W W2 st htake
    cases W with
    | nil =>
      cases W2 with
      | nil => rfl
      | cons b bs => simp at htake
    | cons a as =>
      cases W2 with
      | nil => simp at htake
      | cons b bs =>
        rw [List.take_succ_cons, List.take_succ_cons, List.take_zero] at htake
        have hab : a = b := by simpa using htake
        subst hab
        rw [fitAdditiveGo_cons, fitAdditiveGo_cons,
          List.getElem?_cons_zero, List.getElem?_cons_zero]
  | succ i' ih =>
    intro W W2 st htake
    cases W with
    | nil =>
      cases W2 with
      | nil => rfl
      | cons b bs => simp at htake
    | cons a as =>
      cases W2 with
      | nil => simp at htake
      | cons b bs =>
        rw [List.take_succ_cons, List.take_succ_cons] at htake
        have hab : a = b := (List.cons.injEq _ _ _ _ ▸ htake : _ ∧ _).1
        have htail : as.take (i' + 1) = bs.take (i' + 1) :=
          (List.cons.injEq _ _ _ _ ▸ htake : _ ∧ _).2
        subst hab
        rw [fitAdditiveGo_cons, fitAdditiveGo_cons,
          List.getElem?_cons_succ, List.getElem?_cons_succ]
        exact ih as bs _ htail

/-- C2 (amended): the output column of FitAdditive for the i-th lambda is
determined by the inputs and the first i+1 weight columns; because beta
and x_beta carry over from one lambda to the next (no per-lambda reset),
it can change when earlier lambda columns are added, removed or
reordered, but never when the prefix up to i is unchanged. -/
theorem fitAdditive_take_det (y : List ℝ) (W W2 : List (List ℝ))
    (xbeta0 : List (List ℝ)) (X : List (List (List ℝ)))
    (beta0 : List (List ℝ)) (tol : ℝ) (p J n max_iter : ℕ) (i : ℕ)
    (htake : W.take (i + 1) = W2.take (i + 1)) :
    (fitAdditive y W xbeta0 X beta0 tol p J n max_iter)[i]? =
      (fitAdditive y W2 xbeta0 X beta0 tol p J n max_iter)[i]? := by
  rw [fitAdditive, fitAdditive, fitAdditiveFull, fitAdditiveFull,
    List.getElem?_map, List.getElem?_map,
    fitAdditiveGo_take_det n y X p tol max_iter i W W2 _ htake]

/-- Witness for the amended C2 theorem with identical weight lists. -/
theorem fitAdditive_take_det_witness :
    ([[(1 : ℝ)]] : List (List ℝ)).take 1 =
        ([[(1 : ℝ)]] : List (List ℝ)).take 1 ∧
      (fitAdditive [(1 : ℝ)] [[(1 : ℝ)]] [[(0 : ℝ)]] [[[(1 : ℝ)]]]
          [[(0 : ℝ)]] 1 1 1 1 1)[0]? =
        (fitAdditive [(1 : ℝ)] [[(1 : ℝ)]] [[(0 : ℝ)]] [[[(1 : ℝ)]]]
          [[(0 : ℝ)]] 1 1 1 1 1)[0]? :=
  ⟨rfl, fitAdditive_take_det [(1 : ℝ)] [[(1 : ℝ)]] [[(1 : ℝ)]] [[(0 : ℝ)]]
    [[[(1 : ℝ)]]] [[(0 : ℝ)]] 1 1 1 1 1 0 rfl⟩

/-! ### Concrete evaluations of the additive fitter -/

theorem l2norm_single_nonneg (x : ℝ) (hx : 0 ≤ x) : l2norm [x] = x := by
  rw [l2norm]
  have hs : sumSq [x] = x * x := by simp [sumSq]
  rw [hs, Real.sqrt_mul_self hx]

/-- getProxOne on the unit singleton with weight w in [0,1]. -/
theorem prox_eval_unitvec (w : ℝ) (hw1 : w ≤ 1) :
    getProxOne [(1 : ℝ)] [w] = [1 - w] := by
  rw [getProxOne_cons, getProxOne_nil_left, l2norm_one]
  have hc : shrinkFactor w 1 = 1 - w := by
    unfold shrinkFactor cpp_max
    rw [if_neg one_ne_zero, div_one, max_eq_left (by linarith)]
  rw [hc]
  norm_num

theorem sweep_one (n : ℕ) (y : List ℝ) (X : List (List (List ℝ)))
    (w : List ℝ) (st : FState) :
    sweep n y X w 1 st = blockStep n y X w st 0 := by
  unfold sweep
  rw [show List.range 1 = [0] from rfl, List.foldl_cons, List.foldl_nil]

theorem vecBeta_single (x : ℝ) (m : List (List ℝ)) :
    vecBeta ⟨[[x]], m⟩ = [x] := by
  simp [vecBeta]

/-- One block update of the 1x1x1 instance y = [1], X = [[[1]]] from a
consistent state beta = [[b]], x_beta = [[b]]. -/
theorem blockStep_eval (w b : ℝ) (hw1 : w ≤ 1) :
    blockStep 1 [(1 : ℝ)] [[[(1 : ℝ)]]] [w] ⟨[[b]], [[b]]⟩ 0 =
      ⟨[[1 - w]], [[1 - w]]⟩ := by
  have harg : matTvec [[(1 : ℝ)]]
      ((addV (subV [(1 : ℝ)] (sumCols 1 [[b]]))
        (matVec 1 [[(1 : ℝ)]] (([[b]] : List (List ℝ)).getD 0 []))).map
          (fun x => x / ((1 : ℕ) : ℝ))) = [1] := by
    simp [matTvec, addV, subV, sumCols, matVec, smulV, dotV, zeros]
  simp only [blockStep]
  rw [show ([[[(1 : ℝ)]]] : List (List (List ℝ))).getD 0 [] = [[1]] from rfl,
    harg, prox_eval_unitvec w hw1]
  have hmv : matVec 1 [[(1 : ℝ)]] [1 - w] = [1 - w] := by
    simp [matVec, smulV, addV, zeros]
  rw [hmv]
  simp [List.set]

theorem runLam_one (n : ℕ) (y : List ℝ) (X : List (List (List ℝ)))
    (w : List ℝ) (p : ℕ) (tol : ℝ) (st : FState) :
    runLam n y X w p tol 1 st =
      if |l2norm (vecBeta (sweep n y X w p st)) - l2norm (vecBeta st)| < tol
      then (sweep n y X w p st, some (vecBeta (sweep n y X w p st)), false)
      else (sweep n y X w p st, none, true) := by
  rw [show (1 : ℕ) = 0 + 1 from rfl, runLam_succ]
  by_cases h : |l2norm (vecBeta (sweep n y X w p st)) -
      l2norm (vecBeta st)| < tol
  · rw [if_pos h, if_pos h]
  · rw [if_neg h, if_neg h, if_pos rfl]

/-- First lambda (weight 1/2) from the zero start: one sweep moves the
norm by 1/2 ≥ tol = 1/5, so the iteration budget 1 is exhausted, nothing
is stored and the warning fires. -/
theorem runLam_eval_half :
    runLam 1 [(1 : ℝ)] [[[(1 : ℝ)]]] [(1 / 2 : ℝ)] 1 (1 / 5) 1
        ⟨[[0]], [[0]]⟩ =
      (⟨[[1 - 1 / 2]], [[1 - 1 / 2]]⟩, none, true) := by
  rw [runLam_one, sweep_one, blockStep_eval (1 / 2) 0 (by norm_num),
    vecBeta_single, vecBeta_single,
    l2norm_single_nonneg (1 - 1 / 2) (by norm_num),
    l2norm_single_nonneg 0 (by norm_num)]
  rw [if_neg]
  rw [show (1 : ℝ) - 1 / 2 - 0 = 1 / 2 by norm_num,
    abs_of_nonneg (by norm_num : (0 : ℝ) ≤ 1 / 2)]
  norm_num

/-- Second lambda (weight 2/5) from the state the first lambda left:
the norm moves only by 1/10 < 1/5, so this lambda converges at once and
stores [3/5]. -/
theorem runLam_eval_warm :
    runLam 1 [(1 : ℝ)] [[[(1 : ℝ)]]] [(2 / 5 : ℝ)] 1 (1 / 5) 1
        ⟨[[1 - 1 / 2]], [[1 - 1 / 2]]⟩ =
      (⟨[[1 - 2 / 5]], [[1 - 2 / 5]]⟩, some [1 - 2 / 5], false) := by
  rw [runLam_one, sweep_one, blockStep_eval (2 / 5) (1 - 1 / 2) (by norm_num),
    vecBeta_single, vecBeta_single,
    l2norm_single_nonneg (1 - 2 / 5) (by norm_num),
    l2norm_single_nonneg (1 - 1 / 2) (by norm_num)]
  rw [if_pos]
  rw [show (1 : ℝ) - 2 / 5 - (1 - 1 / 2) = 1 / 10 by norm_num,
    abs_of_nonneg (by norm_num : (0 : ℝ) ≤ 1 / 10)]
  norm_num

/-- The same lambda (weight 2/5) run from the zero start instead: the
norm moves by 3/5 ≥ 1/5, so nothing is stored and the warning fires. -/
theorem runLam_eval_cold :
    runLam 1 [(1 : ℝ)] [[[(1 : ℝ)]]] [(2 / 5 : ℝ)] 1 (1 / 5) 1
        ⟨[[0]], [[0]]⟩ =
      (⟨[[1 - 2 / 5]], [[1 - 2 / 5]]⟩, none, true) := by
  rw [runLam_one, sweep_one, blockStep_eval (2 / 5) 0 (by norm_num),
    vecBeta_single, vecBeta_single,
    l2norm_single_nonneg (1 - 2 / 5) (by norm_num),
    l2norm_single_nonneg 0 (by norm_num)]
  rw [if_neg]
  rw [show (1 : ℝ) - 2 / 5 - 0 = 3 / 5 by norm_num,
    abs_of_nonneg (by norm_num : (0 : ℝ) ≤ 3 / 5)]
  norm_num

theorem map_div_one_nat (w : ℝ) :
    [w].map (fun x => x / ((1 : ℕ) : ℝ)) = [w] := by
  norm_num

/-- The two-lambda run: weight columns [1/2] then [2/5]. -/
theorem fitFull_eval_two :
    fitAdditiveFull [(1 : ℝ)] [[(1 / 2 : ℝ)], [(2 / 5 : ℝ)]] [[(0 : ℝ)]]
        [[[(1 : ℝ)]]] [[(0 : ℝ)]] (1 / 5) 1 1 1 1 =
      [(none, true), (some [(1 - 2 / 5 : ℝ)], false)] := by
  rw [fitAdditiveFull, fitAdditiveGo_cons, map_div_one_nat, runLam_eval_half,
    fitAdditiveGo_cons, map_div_one_nat, runLam_eval_warm, fitAdditiveGo_nil]

/-- The single-lambda run with weight column [2/5] alone. -/
theorem fitFull_eval_single :
    fitAdditiveFull [(1 : ℝ)] [[(2 / 5 : ℝ)]] [[(0 : ℝ)]]
        [[[(1 : ℝ)]]] [[(0 : ℝ)]] (1 / 5) 1 1 1 1 =
      [(none, true)] := by
  rw [fitAdditiveFull, fitAdditiveGo_cons, map_div_one_nat, runLam_eval_cold,
    fitAdditiveGo_nil]

/-- The single-lambda run with weight column [1/2] alone. -/
theorem fitFull_eval_single_half :
    fitAdditiveFull [(1 : ℝ)] [[(1 / 2 : ℝ)]] [[(0 : ℝ)]]
        [[[(1 : ℝ)]]] [[(0 : ℝ)]] (1 / 5) 1 1 1 1 =
      [(none, true)] := by
  rw [fitAdditiveFull, fitAdditiveGo_cons, map_div_one_nat, runLam_eval_half,
    fitAdditiveGo_nil]

/-- C2 counterexample: per-lambda independence fails.  The weight column
[2/5] appears as column 1 of the first run and column 0 of the second,
yet the corresponding output columns differ ([3/5] versus the all-zero
column), because the first run reaches lambda index 1 with the warm
state left by the unconverged lambda index 0, while the second starts it
from the caller-supplied zero state. -/
theorem fitAdditive_lambda_dependence :
    ([[(1 / 2 : ℝ)], [(2 / 5 : ℝ)]] : List (List ℝ))[1]? =
        ([[(2 / 5 : ℝ)]] : List (List ℝ))[0]? ∧
      (fitAdditive [(1 : ℝ)] [[(1 / 2 : ℝ)], [(2 / 5 : ℝ)]] [[(0 : ℝ)]]
          [[[(1 : ℝ)]]] [[(0 : ℝ)]] (1 / 5) 1 1 1 1)[1]? ≠
        (fitAdditive [(1 : ℝ)] [[(2 / 5 : ℝ)]] [[(0 : ℝ)]]
          [[[(1 : ℝ)]]] [[(0 : ℝ)]] (1 / 5) 1 1 1 1)[0]? := by
  constructor
  · simp
  · rw [fitAdditive, fitAdditive, fitFull_eval_two, fitFull_eval_single]
    simp [zeros]
    norm_num

/-- Witness for C7 on the single-lambda instance that exhausts its
budget of one iteration. -/
theorem fitAdditive_nonconvergence_witness :
    1 ≤ 1 ∧
      (fitAdditiveFull [(1 : ℝ)] [[(1 / 2 : ℝ)]] [[(0 : ℝ)]] [[[(1 : ℝ)]]]
          [[(0 : ℝ)]] (1 / 5) 1 1 1 1)[0]? = some (none, true) ∧
      ((none : Option (List ℝ)), true).1 = none ∧
      (((none : Option (List ℝ)), true).2 = true ∧
        (fitAdditive [(1 : ℝ)] [[(1 / 2 : ℝ)]] [[(0 : ℝ)]] [[[(1 : ℝ)]]]
            [[(0 : ℝ)]] (1 / 5) 1 1 1 1)[0]? = some (zeros (1 * 1)) ∧
        (fitAdditive [(1 : ℝ)] [[(1 / 2 : ℝ)]] [[(0 : ℝ)]] [[[(1 : ℝ)]]]
            [[(0 : ℝ)]] (1 / 5) 1 1 1 1).length =
          ([[(1 / 2 : ℝ)]] : List (List ℝ)).length) := by
  refine ⟨le_refl 1, ?_, rfl, ?_⟩
  · rw [fitFull_eval_single_half]
    simp
  · exact fitAdditive_nonconvergence [(1 : ℝ)] [[(1 / 2 : ℝ)]] [[(0 : ℝ)]]
      [[[(1 : ℝ)]]] [[(0 : ℝ)]] (1 / 5) 1 1 1 1 0 (none, true) (le_refl 1)
      (by rw [fitFull_eval_single_half]; simp) rfl
